import Mathlib

/-!
Verification development for the DVC auto-signer annotation heuristics
(`auto_sign.py`). The PDF library collaborator is modelled shallowly:
a `Page` carries its word list (as returned by `get_text("words")`) and a
table of literal-text search results (as returned by `search_for`);
coordinates are rationals. Mutating operations are modelled as functions
producing the list of drawing/insertion commands they would issue;
fallible indexing (`doc[i]`) is modelled with `Option`, `none` standing
for a raised `IndexError`.
-/

namespace AutoSign

/-- A bounding box `(x0, y0, x1, y1)`, y growing downwards. -/
structure Rect where
  x0 : ℚ
  y0 : ℚ
  x1 : ℚ
  y1 : ℚ
deriving DecidableEq

/-- One word as returned by `page.get_text("words")`:
bounding box plus literal text. -/
structure Word where
  x0 : ℚ
  y0 : ℚ
  x1 : ℚ
  y1 : ℚ
  txt : String
deriving DecidableEq

/-- A page: its extracted words and the results `page.search_for(s)`
would return for each literal string `s` (absent strings search to `[]`). -/
structure Page where
  words : List Word
  searches : List (String × List Rect)
deriving DecidableEq

/-- The document is the ordered sequence of its pages. -/
abbrev Doc := List Page

/-- `page.search_for(s)` : look the string up in the page's search table. -/
def Page.searchFor (p : Page) (s : String) : List Rect :=
  (((p.searches.find? (fun e => e.1 = s)).map Prod.snd).getD [])

def ieqHeading : String := "Indoor Environmental Quality"

def notesLabel : String := "Notes:"

def sigPhrase : String := "Signature & Stamp of Verifying Licensed Professional"

def sigLabel : String := "Signature"

def dateLabel : String := "Date"

def namePara : String := "(Name)"

def datePara : String := "(Date)"

def naText : String := "NA"

/-- The red fill/stroke colour `(1, 0, 0)`. -/
def redColor : ℚ × ℚ × ℚ := (1, 0, 0)

/-- A drawing command issued on a page: `draw_line` or `insert_text`. -/
inductive Annot where
  | seg (p1 p2 : ℚ × ℚ) (color : ℚ × ℚ × ℚ) (width : ℚ)
  | txt (pos : ℚ × ℚ) (s : String) (fontsize : ℚ) (color : ℚ × ℚ × ℚ)
deriving DecidableEq

/-- Generic running-minimum loop: mirrors the Python pattern
`best, best_gap = None, 1e9; for x in l: if ok(x) and key(x) < best_gap: ...`.
`out` is what the loop stores for the current minimum. -/
def minSelectBy {α β : Type} (ok : α → Bool) (key : α → ℚ) (out : α → β) :
    List α → ℚ × Option β → ℚ × Option β
  | [], acc => acc
  | x :: xs, acc =>
    minSelectBy ok key out xs
      (if ok x = true ∧ key x < acc.1 then (key x, some (out x)) else acc)

/-- Python's `round` (banker's rounding, half to even), idealised over ℚ. -/
def pyRound (q : ℚ) : ℤ :=
  let f : ℤ := Int.floor q
  let r : ℚ := q - (f : ℚ)
  if r < 1/2 then f
  else if 1/2 < r then f + 1
  else if f % 2 = 0 then f else f + 1

/-- Line-bucket key of a word: `round(((y0+y1)/2) * 2) / 2`
(vertical midpoint rounded to the nearest half unit). -/
def lineKey (w : Word) : ℚ :=
  ((pyRound (((w.y0 + w.y1) / 2) * 2) : ℚ)) / 2

/-- Stable insertion into a list sorted by `x0` (new word goes after
existing words with smaller-or-equal `x0`). -/
def insertByX0 (w : Word) : List Word → List Word
  | [] => [w]
  | v :: vs => if v.x0 ≤ w.x0 then v :: insertByX0 w vs else w :: v :: vs

/-- `line_words.sort(key=lambda w: w[0])` — stable sort by `x0`. -/
def sortByX0 (ws : List Word) : List Word :=
  ws.foldl (fun acc w => insertByX0 w acc) []

/-- Distinct line keys in order of first occurrence
(Python dict insertion order for `line_buckets`). -/
def bucketKeys (ws : List Word) : List ℚ :=
  ws.foldl (fun ks w => if lineKey w ∈ ks then ks else ks ++ [lineKey w]) []

/-- The words of the line bucket `k`, sorted left-to-right. -/
def lineWords (ws : List Word) (k : ℚ) : List Word :=
  sortByX0 (ws.filter (fun w => lineKey w = k))

/-- `any(w[4] == "No" for w in line_words)`. -/
def hasNo (L : List Word) : Bool :=
  L.any (fun w => w.txt == "No")

/-- The `right_no` loop: nearest `"No"` strictly right of the Yes word's
right edge whose gap lies in `[30, 250]` (first such at equal gaps). -/
def rightNo (L : List Word) (w : Word) : Option Word :=
  ((minSelectBy
    (fun ww => ww.txt == "No" && decide (ww.x0 > w.x1) &&
      decide (30 ≤ ww.x0 - w.x1) && decide (ww.x0 - w.x1 ≤ 250))
    (fun ww => ww.x0 - w.x1) id L ((10:ℚ)^9, none)).2)

/-- The `left_neighbor` loop: among words with `x1 ≤ x0` and `x0 - x1 < 25`,
the one with the largest right edge (first such at ties). -/
def leftNeighbor (L : List Word) (w : Word) : Option Word :=
  L.foldl (fun acc ww =>
    if ww.x1 ≤ w.x0 ∧ w.x0 - ww.x1 < 25 then
      match acc with
      | none => some ww
      | some n => if ww.x1 > n.x1 then some ww else acc
    else acc) none

/-- `any(ch.isdigit() for ch in t) or "%" in t` (ASCII digits). -/
def containsDigitOrPct (t : String) : Bool :=
  t.data.any Char.isDigit || t.data.contains '%'

/-- The numeric-qualifier skip: a left neighbour exists and its text
contains a digit or a percent sign. -/
def badLeft (L : List Word) (w : Word) : Bool :=
  match leftNeighbor L w with
  | some n => containsDigitOrPct n.txt
  | none => false

/-- The IEQ-boundary test: with a recorded threshold `t` the word passes
only when `y0 < t - 2`; with no threshold every word passes. -/
def passThresh (ythr : Option ℚ) (w : Word) : Bool :=
  match ythr with
  | none => true
  | some t => decide (w.y0 < t - 2)

/-- All four checks of the marking loop for a `"Yes"` candidate on its
(sorted) line. -/
def yesMarked (ythr : Option ℚ) (L : List Word) (w : Word) : Bool :=
  passThresh ythr w && hasNo L && (rightNo L w).isSome && !(badLeft L w)

/-- The `"Yes"` words of one line that receive a mark, left to right. -/
def markedOnLine (ythr : Option ℚ) (L : List Word) : List Word :=
  (L.filter (fun w => w.txt = "Yes")).filter (fun w => yesMarked ythr L w)

/-- All `"Yes"` words of a page that receive a mark
(buckets in first-occurrence order). -/
def markedWords (ythr : Option ℚ) (ws : List Word) : List Word :=
  (bucketKeys ws).flatMap (fun k => markedOnLine ythr (lineWords ws k))

/-- One draw of the four `random.uniform` jitters of a mark. -/
structure Jit where
  jx : ℚ
  jy : ℚ
  jb : ℚ
  jw : ℚ
deriving DecidableEq

/-- The ranges of the four `random.uniform` calls:
`(-1.5,1.5)`, `(-1.2,1.2)`, `(-1.0,1.2)`, `(-0.2,0.25)`. -/
def JitValid (j : Jit) : Prop :=
  -(3/2) ≤ j.jx ∧ j.jx ≤ 3/2 ∧ -(6/5) ≤ j.jy ∧ j.jy ≤ 6/5 ∧
  -1 ≤ j.jb ∧ j.jb ≤ 6/5 ∧ -(1/5) ≤ j.jw ∧ j.jw ≤ 1/4

/-- The two crossed red segments of one humanised X mark
(defaults `x_offset = 9`, `box = 10`, `width = 1.2`). -/
def xSegments (xOffset box width : ℚ) (j : Jit) (w : Word) : List Annot :=
  let cx := w.x0 - (xOffset + j.jx)
  let cy := w.y0 + (w.y1 - w.y0) / 2 + j.jy
  let b := max (15/2) (box + j.jb)
  let wline := max (9/10) (width + j.jw)
  [Annot.seg (cx - b/2, cy - b/2) (cx + b/2, cy + b/2) redColor wline,
   Annot.seg (cx - b/2, cy + b/2) (cx + b/2, cy - b/2) redColor wline]

/-- Draw the X marks for a list of marked words, consuming the jitter
stream from index `c` on. -/
def xAnnotsFrom (jit : ℕ → Jit) : ℕ → List Word → List Annot
  | _, [] => []
  | c, w :: ws => xSegments 9 10 (6/5) (jit c) w ++ xAnnotsFrom jit (c+1) ws

/-- `skip_after_y_by_page.get(idx, None)`, taking `.y0` of the rect. -/
def ythreshFor (skip : List (ℕ × Rect)) (i : ℕ) : Option ℚ :=
  (skip.find? (fun e => e.1 = i)).map (fun e => e.2.y0)

/-- Page loop of `mark_yes_boxes_red`: page index `i`, jitter counter `c`. -/
def markYesFrom (jit : ℕ → Jit) (skip : List (ℕ × Rect)) :
    ℕ → ℕ → List Page → List (ℕ × Annot)
  | _, _, [] => []
  | i, c, p :: ps =>
    let mws := markedWords (ythreshFor skip i) p.words
    (xAnnotsFrom jit c mws).map (fun a => (i, a)) ++
      markYesFrom jit skip (i+1) (c + mws.length) ps

/-- `mark_yes_boxes_red(doc, skip_after_y_by_page)`: the page-indexed
drawing commands issued, for a given jitter stream. -/
def mark_yes_boxes_red (jit : ℕ → Jit) (doc : Doc)
    (skip : List (ℕ × Rect)) : List (ℕ × Annot) :=
  markYesFrom jit skip 0 0 doc

/-- `for i, p in enumerate(doc): if p.search_for(heading): sections[i] = rects[0]`,
with running page index. -/
def findIeqFrom : ℕ → List Page → List (ℕ × Rect)
  | _, [] => []
  | i, p :: ps =>
    match p.searchFor ieqHeading with
    | [] => findIeqFrom (i+1) ps
    | r :: _ => (i, r) :: findIeqFrom (i+1) ps

/-- `find_ieq_sections(doc)`: page index ↦ first rect of the IEQ heading. -/
def find_ieq_sections (doc : Doc) : List (ℕ × Rect) :=
  findIeqFrom 0 doc

/-- Insertion into a list sorted by first component (key order, stable). -/
def insertSec (s : ℕ × Rect) : List (ℕ × Rect) → List (ℕ × Rect)
  | [] => [s]
  | t :: ts => if t.1 ≤ s.1 then t :: insertSec s ts else s :: t :: ts

/-- `sorted(ieq_sections.items())`: the sections in page-index order. -/
def sortSections (l : List (ℕ × Rect)) : List (ℕ × Rect) :=
  l.foldl (fun acc s => insertSec s acc) []

/-- The forward search `for pi in range(start+1, len(doc))`, looking for the
first later page with any `"Notes:"` occurrence; takes its first rect. -/
def forwardNotesFrom : ℕ → List Page → Option (ℕ × Rect)
  | _, [] => none
  | i, p :: ps =>
    match p.searchFor notesLabel with
    | [] => forwardNotesFrom (i+1) ps
    | r :: _ => some (i, r)

/-- Forward `"Notes:"` search starting strictly after page `i`. -/
def forwardNotes (doc : Doc) (i : ℕ) : Option (ℕ × Rect) :=
  forwardNotesFrom (i+1) (doc.drop (i+1))

/-- The `"NA"` insertion relative to a `"Notes:"` rect:
`insert_text((x1 + 10, y1 + 8), "NA", fontsize=11, fill=(1,0,0))`. -/
def naAnnot (r : Rect) : Annot :=
  Annot.txt (r.x1 + 10, r.y1 + 8) naText 11 redColor

/-- One iteration of the `insert_ieq_notes_na` loop for the recorded section
`(start_page, ieq_rect)`; `none` models the `doc[start_page]` IndexError. -/
def ieqStep (doc : Doc) (s : ℕ × Rect) : Option (List (ℕ × Annot)) :=
  match doc.get? s.1 with
  | none => none
  | some page =>
    let cands := (page.searchFor notesLabel).filter (fun r => r.y0 > s.2.y1)
    match cands.head? with
    | some r => some [(s.1, naAnnot r)]
    | none =>
      match forwardNotes doc s.1 with
      | some t => some [(t.1, naAnnot t.2)]
      | none => some []

/-- `insert_ieq_notes_na(doc, ieq_sections)`: the page-indexed text
insertions issued, or `none` if an iteration raised. -/
def insert_ieq_notes_na (doc : Doc) (sections : List (ℕ × Rect)) :
    Option (List (ℕ × Annot)) :=
  (sortSections sections).foldl
    (fun acc s => acc.bind (fun l => (ieqStep doc s).map (fun l2 => l ++ l2)))
    (some [])

/-- Formulated from the spec sentence for the Notes Filler: the target is the
first `"Notes:"` occurrence (in search order) on the section's own page whose
top edge lies below the heading's bottom edge; failing that, the first
occurrence on the first subsequent page having any. -/
def notesTargetSpec (doc : Doc) (i : ℕ) (rect : Rect) : Option (ℕ × Rect) :=
  match doc.get? i with
  | none => none
  | some page =>
    match (page.searchFor notesLabel).find? (fun r => decide (r.y0 > rect.y1)) with
    | some r => some (i, r)
    | none => forwardNotes doc i

/-- `for i, p in enumerate(doc): if p.search_for(phrase): return i`. -/
def phrasePageFrom : ℕ → List Page → Option ℕ
  | _, [] => none
  | i, p :: ps =>
    if p.searchFor sigPhrase ≠ [] then some i else phrasePageFrom (i+1) ps

/-- The first page carrying the exact signature phrase, if any. -/
def phrasePage (doc : Doc) : Option ℕ :=
  phrasePageFrom 0 doc

/-- All `(page index, Signature rect, Date rect)` triples visited by the
nested fallback loops of `find_signature_page`, in visit order. -/
def sigPairsFrom : ℕ → List Page → List (ℕ × Rect × Rect)
  | _, [] => []
  | i, p :: ps =>
    ((p.searchFor sigLabel).flatMap
      (fun s => (p.searchFor dateLabel).map (fun d => (i, s, d)))) ++
      sigPairsFrom (i+1) ps

def sigPairs (doc : Doc) : List (ℕ × Rect × Rect) :=
  sigPairsFrom 0 doc

/-- Vertical centre of a rect. -/
def vCenter (r : Rect) : ℚ := (r.y0 + r.y1) / 2

/-- Vertical-centre distance `abs((s.y0+s.y1)/2 - (d.y0+d.y1)/2)`. -/
def vgap (s d : Rect) : ℚ := |vCenter s - vCenter d|

def sigGap (t : ℕ × Rect × Rect) : ℚ := vgap t.2.1 t.2.2

/-- The fallback page search: running minimum of the vertical-centre gap
over all Signature/Date pairs of all pages, seeded with `1e9`. -/
def bestSigPage (doc : Doc) : Option ℕ :=
  ((minSelectBy (fun _ => true) sigGap (fun t => t.1)
    (sigPairs doc) ((10:ℚ)^9, none)).2)

/-- `find_signature_page(doc)`: the phrase page, else the best-pair page,
else `max(0, len(doc) - 2)` (ℕ subtraction already truncates at 0). -/
def find_signature_page (doc : Doc) : ℕ :=
  match phrasePage doc with
  | some i => i
  | none =>
    match bestSigPage doc with
    | some i => i
    | none => doc.length - 2

/-- All `(s, d)` label pairs in the order the nested pairing loops visit. -/
def pairsOf (sigs dates : List Rect) : List (Rect × Rect) :=
  sigs.flatMap (fun s => dates.map (fun d => (s, d)))

/-- Running minimum over pairs with `gap ≤ tol and gap < best_gap`,
seeded with `1e9`. -/
def bestPair (tol : ℚ) (sigs dates : List Rect) : Option (Rect × Rect) :=
  ((minSelectBy (fun sd => decide (vgap sd.1 sd.2 ≤ tol))
    (fun sd => vgap sd.1 sd.2) id (pairsOf sigs dates) ((10:ℚ)^9, none)).2)

/-- Python `min(rs, key=key)` over a nonempty list (first minimum wins). -/
def minByKey (key : Rect → ℚ) (r : Rect) (rs : List Rect) : Rect :=
  rs.foldl (fun b x => if key x < key b then x else b) r

/-- Python `min(l, key=key)` as an `Option` for possibly-empty lists. -/
def minByKeyList (key : Rect → ℚ) : List Rect → Option Rect
  | [] => none
  | r :: rs => some (minByKey key r rs)

/-- The tolerance-free fallback pairing: topmost Signature label with the
Date label of minimal vertical-centre distance to it. -/
def fallbackPair (sigs dates : List Rect) : Option (Rect × Rect) :=
  match minByKeyList (fun r => r.y0) sigs with
  | none => none
  | some s =>
    match minByKeyList (fun r => vgap r s) dates with
    | none => none
    | some d => some (s, d)

/-- The pair used for the bottom signature/date insertions:
within-tolerance best pair, else the fallback pairing. -/
def pairOrFallback (tol : ℚ) (sigs dates : List Rect) : Option (Rect × Rect) :=
  match bestPair tol sigs dates with
  | some sd => some sd
  | none => fallbackPair sigs dates

/-- The `(Date)` paragraph token chosen for the `"NA"` insertion:
first occurrence with `d.y0 >= name.y0 - 5` when a `(Name)` token exists,
else the first occurrence. -/
def chosenDatePara (nameMarks dateMarks : List Rect) : Option Rect :=
  match dateMarks with
  | [] => none
  | d0 :: _ =>
    match nameMarks with
    | [] => some d0
    | nm :: _ =>
      match dateMarks.find? (fun d => decide (d.y0 ≥ nm.y0 - 5)) with
      | some d => some d
      | none => some d0

/-- `fill_signature_section_red(doc, signer_name, bottom_date, tol)`:
the text insertions issued on the selected page, or `none` if the page
lookup `doc[find_signature_page(doc)]` raised. `tw` is the font-metric
collaborator `text_width`. -/
def fill_signature_section_red (tw : String → ℚ → ℚ) (doc : Doc)
    (signerName bottomDate : String) (tol : ℚ) : Option (List Annot) :=
  match doc.get? (find_signature_page doc) with
  | none => none
  | some page =>
    let nameMarks := page.searchFor namePara
    let dateMarks := page.searchFor datePara
    let paraName : List Annot :=
      match nameMarks with
      | [] => []
      | r :: _ =>
        [Annot.txt (r.x0 - 6 - tw signerName 11, r.y1 - 2) signerName 11 redColor]
    let paraDate : List Annot :=
      match chosenDatePara nameMarks dateMarks with
      | none => []
      | some c =>
        [Annot.txt (c.x0 - 6 - tw naText 11, c.y1 - 2) naText 11 redColor]
    let pairIns : List Annot :=
      match pairOrFallback tol (page.searchFor sigLabel) (page.searchFor dateLabel) with
      | none => []
      | some sd =>
        [Annot.txt (sd.1.x1 + 12, sd.1.y1 - 2) signerName 16 redColor,
         Annot.txt (sd.2.x1 + 12, sd.2.y1 - 2) bottomDate 12 redColor]
    some (paraName ++ paraDate ++ pairIns)

/-- State-passing rendering of the `find_ieq_sections` loop: each page is
read (and handed back unchanged); only `search_for` is invoked. -/
def findIeqSectionsStFrom : ℕ → List Page → List Page × List (ℕ × Rect)
  | _, [] => ([], [])
  | i, p :: ps =>
    let rest := findIeqSectionsStFrom (i+1) ps
    (p :: rest.1,
     (match p.searchFor ieqHeading with
      | [] => []
      | r :: _ => [(i, r)]) ++ rest.2)

/-- State-passing `find_ieq_sections`: returns the traversed document
and the section map. -/
def findIeqSectionsSt (doc : Doc) : Doc × List (ℕ × Rect) :=
  findIeqSectionsStFrom 0 doc

/-- State-passing rendering of the phrase loop of `find_signature_page`. -/
def phrasePageStFrom : ℕ → List Page → List Page × Option ℕ
  | _, [] => ([], none)
  | i, p :: ps =>
    if p.searchFor sigPhrase ≠ [] then (p :: ps, some i)
    else
      let rest := phrasePageStFrom (i+1) ps
      (p :: rest.1, rest.2)

/-- State-passing collection of the fallback Signature/Date pair triples. -/
def sigPairsStFrom : ℕ → List Page → List Page × List (ℕ × Rect × Rect)
  | _, [] => ([], [])
  | i, p :: ps =>
    let rest := sigPairsStFrom (i+1) ps
    (p :: rest.1,
     ((p.searchFor sigLabel).flatMap
       (fun s => (p.searchFor dateLabel).map (fun d => (i, s, d)))) ++ rest.2)

/-- State-passing `find_signature_page`: both passes read the pages and
hand them back unchanged; only `search_for` is invoked. -/
def findSignaturePageSt (doc : Doc) : Doc × ℕ :=
  let r1 := phrasePageStFrom 0 doc
  match r1.2 with
  | some i => (r1.1, i)
  | none =>
    let r2 := sigPairsStFrom 0 r1.1
    match (minSelectBy (fun _ => true) sigGap (fun t => t.1)
      r2.2 ((10:ℚ)^9, none)).2 with
    | some i => (r2.1, i)
    | none => (r2.1, r2.1.length - 2)

/-! Concrete scenario data used by the claim scenarios, the witnesses and
the counterexamples. -/

/-- The `"Yes"` word of the end-to-end scenario, box (100,200)-(130,212). -/
def yesW : Word := ⟨100, 200, 130, 212, "Yes"⟩

/-- The `"No"` word of the end-to-end scenario, box (180,200)-(210,212). -/
def noW : Word := ⟨180, 200, 210, 212, "No"⟩

/-- The single page of the end-to-end scenario: no IEQ heading anywhere. -/
def pageC9 : Page := ⟨[yesW, noW], []⟩

def docC9 : Doc := [pageC9]

/-- A qualifying Yes/No line at `y0 = 410` (below a boundary at 400). -/
def yes410 : Word := ⟨100, 410, 130, 422, "Yes"⟩

def no410 : Word := ⟨180, 410, 210, 422, "No"⟩

/-- A qualifying Yes/No line at `y0 = 390` (above a boundary at 400). -/
def yes390 : Word := ⟨100, 390, 130, 402, "Yes"⟩

def no390 : Word := ⟨180, 390, 210, 402, "No"⟩

/-- A numeric left neighbour `"100%"` ending 5 units left of the Yes word. -/
def pct8 : Word := ⟨70, 200, 95, 212, "100%"⟩

def yes8 : Word := ⟨100, 200, 130, 212, "Yes"⟩

def no8 : Word := ⟨180, 200, 210, 212, "No"⟩

def ws8 : List Word := [pct8, yes8, no8]

/-- A page with no words and no search hits at all. -/
def emptyPage : Page := ⟨[], []⟩

/-- A Signature/Date pair whose vertical-centre distance is `2·10^9`. -/
def sFar : Rect := ⟨10, 0, 40, 10⟩

def dFar : Rect := ⟨10, 2000000000, 40, 2000000010⟩

def pgFar : Page := ⟨[], [(sigLabel, [sFar]), (dateLabel, [dFar])]⟩

/-- Three pages, no phrase anywhere, the only Signature/Date pair on
page 0 at distance `2·10^9`. -/
def docC3cex : Doc := [pgFar, emptyPage, emptyPage]

def sNear0 : Rect := ⟨10, 100, 60, 110⟩

def dNear0 : Rect := ⟨10, 140, 60, 150⟩

def sNear1 : Rect := ⟨10, 300, 60, 310⟩

def dNear1 : Rect := ⟨10, 330, 60, 340⟩

def rPhrase : Rect := ⟨10, 700, 300, 712⟩

def pgScn0 : Page := ⟨[], [(sigLabel, [sNear0]), (dateLabel, [dNear0])]⟩

def pgScn1 : Page := ⟨[], [(sigLabel, [sNear1]), (dateLabel, [dNear1])]⟩

def pgScn2 : Page :=
  ⟨[], [(sigPhrase, [rPhrase]), (sigLabel, [⟨10, 700, 60, 712⟩])]⟩

/-- Three pages where only page 2 carries the exact signature phrase while
pages 0 and 1 carry standalone Signature/Date pairs. -/
def docC3scn : Doc := [pgScn0, pgScn1, pgScn2]

/-- A Signature label with vertical centre 106. -/
def s80 : Rect := ⟨50, 100, 120, 112⟩

/-- A Date label with vertical centre 186, i.e. 80 units from `s80`. -/
def d80 : Rect := ⟨50, 180, 100, 192⟩

def pg80 : Page := ⟨[], [(sigLabel, [s80]), (dateLabel, [d80])]⟩

def doc80 : Doc := [pg80]

/-- A `(Name)` token with top edge 100. -/
def nmC6 : Rect := ⟨300, 100, 340, 110⟩

/-- A `(Date)` token 3 units above the name top (still accepted by the code). -/
def dC6a : Rect := ⟨500, 97, 540, 107⟩

/-- A `(Date)` token exactly at the name top. -/
def dC6b : Rect := ⟨500, 100, 540, 110⟩

/-- A trivial font-metric collaborator. -/
def twZero : String → ℚ → ℚ := fun _ _ => 0

/-- A jitter stream with all draws at 0 (inside every uniform range). -/
def jitZero : ℕ → Jit := fun _ => ⟨0, 0, 0, 0⟩

/-! Properties of the generic running-minimum loop. -/

theorem minSelectBy_eq_or_mem {α β : Type} (ok : α → Bool) (key : α → ℚ)
    (out : α → β) (l : List α) :
    ∀ acc : ℚ × Option β,
      minSelectBy ok key out l acc = acc ∨
        ∃ x ∈ l, ok x = true ∧
          minSelectBy ok key out l acc = (key x, some (out x)) := by
  induction l with
  | nil => intro acc; exact Or.inl rfl
  | cons x xs ih =>
    intro acc
    simp only [minSelectBy]
    by_cases h : ok x = true ∧ key x < acc.1
    · rw [if_pos h]
      rcases ih (key x, some (out x)) with h1 | ⟨y, hy, hok, he⟩
      · exact Or.inr ⟨x, List.mem_cons_self x xs, h.1, h1⟩
      · exact Or.inr ⟨y, List.mem_cons_of_mem x hy, hok, he⟩
    · rw [if_neg h]
      rcases ih acc with h1 | ⟨y, hy, hok, he⟩
      · exact Or.inl h1
      · exact Or.inr ⟨y, List.mem_cons_of_mem x hy, hok, he⟩

theorem minSelectBy_fst_le {α β : Type} (ok : α → Bool) (key : α → ℚ)
    (out : α → β) (l : List α) :
    ∀ acc : ℚ × Option β, (minSelectBy ok key out l acc).1 ≤ acc.1 := by
  induction l with
  | nil => intro acc; exact le_refl _
  | cons x xs ih =>
    intro acc
    simp only [minSelectBy]
    by_cases h : ok x = true ∧ key x < acc.1
    · rw [if_pos h]; exact le_trans (ih _) (le_of_lt h.2)
    · rw [if_neg h]; exact ih acc

theorem minSelectBy_fst_min {α β : Type} (ok : α → Bool) (key : α → ℚ)
    (out : α → β) (l : List α) :
    ∀ acc : ℚ × Option β, ∀ x ∈ l, ok x = true →
      (minSelectBy ok key out l acc).1 ≤ key x := by
  induction l with
  | nil => intro acc x hx; exact absurd hx (List.not_mem_nil x)
  | cons y ys ih =>
    intro acc x hx hok
    simp only [minSelectBy]
    rcases List.mem_cons.mp hx with rfl | hx'
    · by_cases h : ok x = true ∧ key x < acc.1
      · rw [if_pos h]
        exact minSelectBy_fst_le ok key out ys (key x, some (out x))
      · rw [if_neg h]
        have hge : acc.1 ≤ key x :=
          not_lt.mp (fun hlt => h ⟨hok, hlt⟩)
        exact le_trans (minSelectBy_fst_le ok key out ys acc) hge
    · by_cases h : ok y = true ∧ key y < acc.1
      · rw [if_pos h]; exact ih _ x hx' hok
      · rw [if_neg h]; exact ih acc x hx' hok

theorem minSelectBy_no_update {α β : Type} (ok : α → Bool) (key : α → ℚ)
    (out : α → β) (l : List α) :
    ∀ acc : ℚ × Option β, (∀ x ∈ l, ok x = true → ¬ key x < acc.1) →
      minSelectBy ok key out l acc = acc := by
  induction l with
  | nil => intro acc _; rfl
  | cons x xs ih =>
    intro acc hall
    simp only [minSelectBy]
    have hx : ¬ (ok x = true ∧ key x < acc.1) := by
      rintro ⟨hok, hlt⟩
      exact hall x (List.mem_cons_self x xs) hok hlt
    rw [if_neg hx]
    exact ih acc (fun y hy => hall y (List.mem_cons_of_mem x hy))

theorem minSelectBy_isSome {α β : Type} (ok : α → Bool) (key : α → ℚ)
    (out : α → β) (l : List α) (g : ℚ)
    (h : ∃ x ∈ l, ok x = true ∧ key x < g) :
    ∃ b, (minSelectBy ok key out l (g, none)).2 = some b := by
  rcases h with ⟨x, hx, hok, hlt⟩
  rcases minSelectBy_eq_or_mem ok key out l (g, none) with h1 | ⟨y, _, _, he⟩
  · exfalso
    have hle := minSelectBy_fst_min ok key out l (g, none) x hx hok
    rw [h1] at hle
    exact absurd (lt_of_le_of_lt hle hlt) (lt_irrefl g)
  · exact ⟨out y, by rw [he]⟩

/-! Properties of the Python `min(..., key=...)` fold. -/

theorem minByKey_mem (key : Rect → ℚ) (rs : List Rect) :
    ∀ r : Rect, minByKey key r rs ∈ r :: rs := by
  induction rs with
  | nil => intro r; simp [minByKey]
  | cons x xs ih =>
    intro r
    have hstep : minByKey key r (x :: xs) =
        minByKey key (if key x < key r then x else r) xs := rfl
    rw [hstep]
    rcases List.mem_cons.mp (ih (if key x < key r then x else r)) with he | hm
    · rw [he]
      by_cases h : key x < key r
      · rw [if_pos h]; exact List.mem_cons_of_mem r (List.mem_cons_self x xs)
      · rw [if_neg h]; exact List.mem_cons_self r (x :: xs)
    · exact List.mem_cons_of_mem r (List.mem_cons_of_mem x hm)

theorem minByKey_min (key : Rect → ℚ) (rs : List Rect) :
    ∀ r : Rect, key (minByKey key r rs) ≤ key r ∧
      ∀ x ∈ rs, key (minByKey key r rs) ≤ key x := by
  induction rs with
  | nil =>
    intro r
    exact ⟨le_refl _, fun x hx => absurd hx (List.not_mem_nil x)⟩
  | cons x xs ih =>
    intro r
    have hstep : minByKey key r (x :: xs) =
        minByKey key (if key x < key r then x else r) xs := rfl
    rw [hstep]
    have hbase : key (if key x < key r then x else r) ≤ key r := by
      by_cases h : key x < key r
      · simp only [if_pos h]; exact le_of_lt h
      · simp only [if_neg h]; exact le_refl _
    have hbx : key (if key x < key r then x else r) ≤ key x := by
      by_cases h : key x < key r
      · simp only [if_pos h]; exact le_refl _
      · simp only [if_neg h]; exact not_lt.mp h
    refine ⟨le_trans (ih _).1 hbase, fun y hy => ?_⟩
    rcases List.mem_cons.mp hy with rfl | hy'
    · exact le_trans (ih _).1 hbx
    · exact (ih _).2 y hy'

theorem minByKeyList_spec (key : Rect → ℚ) (l : List Rect) (r : Rect)
    (h : minByKeyList key l = some r) :
    r ∈ l ∧ ∀ x ∈ l, key r ≤ key x := by
  cases l with
  | nil => exact absurd h (by simp [minByKeyList])
  | cons a as =>
    have hr : r = minByKey key a as := by
      have : some (minByKey key a as) = some r := h
      exact (Option.some_inj.mp this).symm
    subst hr
    refine ⟨minByKey_mem key as a, fun x hx => ?_⟩
    rcases List.mem_cons.mp hx with he | hx'
    · rw [he]; exact (minByKey_min key as a).1
    · exact (minByKey_min key as a).2 x hx'

/-! Membership facts for the stable sort and the line bucketing. -/

theorem mem_insertByX0 {a w : Word} :
    ∀ {l : List Word}, a ∈ insertByX0 w l ↔ a = w ∨ a ∈ l := by
  intro l
  induction l with
  | nil => simp [insertByX0]
  | cons v vs ih =>
    simp only [insertByX0]
    by_cases h : v.x0 ≤ w.x0
    · rw [if_pos h]
      simp only [List.mem_cons, ih]
      tauto
    · rw [if_neg h]
      simp only [List.mem_cons]

theorem mem_sortByX0_aux {a : Word} (ws : List Word) :
    ∀ acc : List Word,
      (a ∈ ws.foldl (fun acc w => insertByX0 w acc) acc ↔ a ∈ acc ∨ a ∈ ws) := by
  induction ws with
  | nil => intro acc; simp
  | cons w ws ih =>
    intro acc
    simp only [List.foldl_cons, ih (insertByX0 w acc), mem_insertByX0,
      List.mem_cons]
    tauto

theorem mem_sortByX0 {a : Word} {ws : List Word} :
    a ∈ sortByX0 ws ↔ a ∈ ws := by
  rw [sortByX0, mem_sortByX0_aux ws []]
  simp

theorem mem_bucketKeys_aux {k : ℚ} (ws : List Word) :
    ∀ acc : List ℚ,
      (k ∈ ws.foldl
          (fun ks w => if lineKey w ∈ ks then ks else ks ++ [lineKey w]) acc ↔
        k ∈ acc ∨ ∃ w ∈ ws, lineKey w = k) := by
  induction ws with
  | nil => intro acc; simp
  | cons w ws ih =>
    intro acc
    simp only [List.foldl_cons]
    by_cases h : lineKey w ∈ acc
    · rw [if_pos h, ih acc]
      constructor
      · rintro (hk | ⟨v, hv, hvk⟩)
        · exact Or.inl hk
        · exact Or.inr ⟨v, List.mem_cons_of_mem w hv, hvk⟩
      · rintro (hk | ⟨v, hv, hvk⟩)
        · exact Or.inl hk
        · rcases List.mem_cons.mp hv with he | hv'
          · exact Or.inl (by rw [← hvk, he]; exact h)
          · exact Or.inr ⟨v, hv', hvk⟩
    · rw [if_neg h, ih (acc ++ [lineKey w])]
      constructor
      · rintro (hk | ⟨v, hv, hvk⟩)
        · rcases List.mem_append.mp hk with hk1 | hk2
          · exact Or.inl hk1
          · exact Or.inr ⟨w, List.mem_cons_self w ws,
              (List.mem_singleton.mp hk2).symm⟩
        · exact Or.inr ⟨v, List.mem_cons_of_mem w hv, hvk⟩
      · rintro (hk | ⟨v, hv, hvk⟩)
        · exact Or.inl (List.mem_append.mpr (Or.inl hk))
        · rcases List.mem_cons.mp hv with he | hv'
          · exact Or.inl (List.mem_append.mpr (Or.inr
              (List.mem_singleton.mpr (by rw [← hvk, he]))))
          · exact Or.inr ⟨v, hv', hvk⟩

theorem mem_bucketKeys {k : ℚ} {ws : List Word} :
    k ∈ bucketKeys ws ↔ ∃ w ∈ ws, lineKey w = k := by
  rw [bucketKeys, mem_bucketKeys_aux ws []]
  simp

/-! Characterisation of the marking decision. -/

theorem mem_lineWords {w : Word} {ws : List Word} {k : ℚ} :
    w ∈ lineWords ws k ↔ w ∈ ws ∧ lineKey w = k := by
  rw [lineWords, mem_sortByX0, List.mem_filter]
  simp only [decide_eq_true_eq]

theorem mem_markedWords {ythr : Option ℚ} {ws : List Word} {w : Word} :
    w ∈ markedWords ythr ws ↔
      w ∈ ws ∧ w.txt = "Yes" ∧
        yesMarked ythr (lineWords ws (lineKey w)) w = true := by
  rw [markedWords]
  constructor
  · intro h
    rcases List.mem_flatMap.mp h with ⟨k, _, hm⟩
    rw [markedOnLine] at hm
    rcases List.mem_filter.mp hm with ⟨hm1, hym⟩
    rcases List.mem_filter.mp hm1 with ⟨hmL, htxt⟩
    have hwk := mem_lineWords.mp hmL
    have hkey : lineKey w = k := hwk.2
    subst hkey
    exact ⟨hwk.1, of_decide_eq_true htxt, hym⟩
  · rintro ⟨hws, htxt, hym⟩
    refine List.mem_flatMap.mpr
      ⟨lineKey w, mem_bucketKeys.mpr ⟨w, hws, rfl⟩, ?_⟩
    rw [markedOnLine]
    refine List.mem_filter.mpr
      ⟨List.mem_filter.mpr ⟨mem_lineWords.mpr ⟨hws, rfl⟩, ?_⟩, hym⟩
    exact decide_eq_true htxt

theorem yesMarked_iff {ythr : Option ℚ} {L : List Word} {w : Word} :
    yesMarked ythr L w = true ↔
      passThresh ythr w = true ∧ hasNo L = true ∧
        (rightNo L w).isSome = true ∧ badLeft L w = false := by
  rw [yesMarked]
  simp [Bool.and_eq_true, Bool.not_eq_true']
  tauto

theorem rightNo_spec {L : List Word} {w ww : Word}
    (h : rightNo L w = some ww) :
    ww ∈ L ∧ ww.txt = "No" ∧ ww.x0 > w.x1 ∧
      30 ≤ ww.x0 - w.x1 ∧ ww.x0 - w.x1 ≤ 250 := by
  rw [rightNo] at h
  rcases minSelectBy_eq_or_mem
      (fun ww => ww.txt == "No" && decide (ww.x0 > w.x1) &&
        decide (30 ≤ ww.x0 - w.x1) && decide (ww.x0 - w.x1 ≤ 250))
      (fun ww => ww.x0 - w.x1) id L ((10:ℚ)^9, none) with h1 | ⟨x, hx, hok, he⟩
  · rw [h1] at h
    exact absurd h (by simp)
  · rw [he] at h
    have hxw : x = ww := by simpa using h
    subst hxw
    simp only [Bool.and_eq_true, decide_eq_true_eq, beq_iff_eq] at hok
    exact ⟨hx, hok.1.1.1, hok.1.1.2, hok.1.2, hok.2⟩

/-! Concrete evaluations of the marking pipeline. -/

theorem markedWords_C9 : markedWords none [yesW, noW] = [yesW] := by
  norm_num [markedWords, bucketKeys, lineKey, pyRound, yesW, noW, markedOnLine,
    lineWords, sortByX0, insertByX0, yesMarked, passThresh, hasNo, rightNo,
    minSelectBy, leftNeighbor, badLeft, List.filter, List.foldl, List.flatMap]

theorem markedWords_410 : markedWords (some 400) [yes410, no410] = [] := by
  norm_num [markedWords, bucketKeys, lineKey, pyRound, yes410, no410,
    markedOnLine, lineWords, sortByX0, insertByX0, yesMarked, passThresh,
    hasNo, rightNo, minSelectBy, leftNeighbor, badLeft, List.filter,
    List.foldl, List.flatMap]

theorem markedWords_390 : markedWords (some 400) [yes390, no390] = [yes390] := by
  norm_num [markedWords, bucketKeys, lineKey, pyRound, yes390, no390,
    markedOnLine, lineWords, sortByX0, insertByX0, yesMarked, passThresh,
    hasNo, rightNo, minSelectBy, leftNeighbor, badLeft, List.filter,
    List.foldl, List.flatMap]

theorem containsDigitOrPct_pct8 : containsDigitOrPct "100%" = true := rfl

theorem decide_pct_yes : decide ("100%" = "Yes") = false := rfl

theorem leftNeighbor_ws8 :
    leftNeighbor (lineWords ws8 (lineKey yes8)) yes8 = some pct8 := by
  norm_num [ws8, lineKey, pyRound, pct8, yes8, no8, lineWords, sortByX0,
    insertByX0, leftNeighbor, List.filter, List.foldl]

theorem markedWords_ws8 : markedWords none ws8 = [] := by
  norm_num [markedWords, bucketKeys, lineKey, pyRound, ws8, pct8, yes8, no8,
    markedOnLine, lineWords, sortByX0, insertByX0, yesMarked, passThresh,
    hasNo, rightNo, minSelectBy, leftNeighbor, badLeft, containsDigitOrPct,
    decide_pct_yes, List.filter, List.foldl, List.flatMap]

/-- C1: in the Checkbox Marker, a red X is drawn for a "Yes" word only if
some "No" word on the same visual line (words bucketed by vertical midpoint
rounded to the nearest 0.5 unit) lies strictly to the right of the Yes
word's right edge with a horizontal gap in the inclusive range [30, 250];
a "Yes" word with no such qualifying "No" receives no mark. -/
theorem marked_yes_requires_qualifying_no (ythr : Option ℚ) (ws : List Word)
    (w : Word) (h : w ∈ markedWords ythr ws) :
    ∃ ww ∈ lineWords ws (lineKey w), ww.txt = "No" ∧ ww.x0 > w.x1 ∧
      30 ≤ ww.x0 - w.x1 ∧ ww.x0 - w.x1 ≤ 250 := by
  rcases mem_markedWords.mp h with ⟨_, _, hym⟩
  have hsome := (yesMarked_iff.mp hym).2.2.1
  rcases Option.isSome_iff_exists.mp hsome with ⟨ww, hww⟩
  rcases rightNo_spec hww with ⟨hmem, h1, h2, h3, h4⟩
  exact ⟨ww, hmem, h1, h2, h3, h4⟩

theorem marked_yes_requires_qualifying_no_witness :
    yesW ∈ markedWords none [yesW, noW] ∧
      ∃ ww ∈ lineWords [yesW, noW] (lineKey yesW), ww.txt = "No" ∧
        ww.x0 > yesW.x1 ∧ 30 ≤ ww.x0 - yesW.x1 ∧ ww.x0 - yesW.x1 ≤ 250 :=
  ⟨by rw [markedWords_C9]; exact List.mem_singleton.mpr rfl,
   marked_yes_requires_qualifying_no none [yesW, noW] yesW
     (by rw [markedWords_C9]; exact List.mem_singleton.mpr rfl)⟩

/-- C2: a "Yes" word is marked on a page with recorded IEQ boundary `t` only
when its `y0` lies strictly above `t - 2`; concretely, with the boundary at
400 a qualifying Yes at `y0 = 410` is not marked while one at `y0 = 390` is;
with no recorded boundary the filter is vacuous, the decision reducing to
the remaining three conditions. -/
theorem ieq_boundary_suppresses_marks :
    (∀ (t : ℚ) (ws : List Word) (w : Word),
        w ∈ markedWords (some t) ws → w.y0 < t - 2) ∧
    markedWords (some 400) [yes410, no410] = [] ∧
    markedWords (some 400) [yes390, no390] = [yes390] ∧
    (∀ (ws : List Word) (w : Word),
        w ∈ markedWords none ws ↔
          w ∈ ws ∧ w.txt = "Yes" ∧
            hasNo (lineWords ws (lineKey w)) = true ∧
            (rightNo (lineWords ws (lineKey w)) w).isSome = true ∧
            badLeft (lineWords ws (lineKey w)) w = false) := by
  refine ⟨?_, markedWords_410, markedWords_390, ?_⟩
  · intro t ws w h
    have hp := (yesMarked_iff.mp (mem_markedWords.mp h).2.2).1
    exact of_decide_eq_true hp
  · intro ws w
    rw [mem_markedWords]
    constructor
    · rintro ⟨hws, htxt, hym⟩
      rcases yesMarked_iff.mp hym with ⟨_, h2, h3, h4⟩
      exact ⟨hws, htxt, h2, h3, h4⟩
    · rintro ⟨hws, htxt, h2, h3, h4⟩
      exact ⟨hws, htxt, yesMarked_iff.mpr ⟨rfl, h2, h3, h4⟩⟩

theorem ieq_boundary_suppresses_marks_witness :
    yes390.y0 < 400 - 2 :=
  ieq_boundary_suppresses_marks.1 400 [yes390, no390] yes390
    (by rw [markedWords_390]; exact List.mem_singleton.mpr rfl)

/-- C8: a "Yes" word whose immediate left-adjacent word on its line (within
25 units of its left edge, nearest right edge if several) contains a digit
or a percent sign is never marked, regardless of a qualifying "No" on the
line. -/
theorem numeric_left_neighbor_suppresses_mark (ythr : Option ℚ)
    (ws : List Word) (w n : Word)
    (hn : leftNeighbor (lineWords ws (lineKey w)) w = some n)
    (hbad : containsDigitOrPct n.txt = true) :
    w ∉ markedWords ythr ws := by
  intro h
  have hbl := (yesMarked_iff.mp (mem_markedWords.mp h).2.2).2.2.2
  simp only [badLeft, hn] at hbl
  rw [hbad] at hbl
  exact absurd hbl (by simp)

theorem numeric_left_neighbor_suppresses_mark_witness :
    leftNeighbor (lineWords ws8 (lineKey yes8)) yes8 = some pct8 ∧
      containsDigitOrPct pct8.txt = true ∧ yes8 ∉ markedWords none ws8 :=
  ⟨leftNeighbor_ws8, rfl,
   numeric_left_neighbor_suppresses_mark none ws8 yes8 pct8
     leftNeighbor_ws8 rfl⟩

/-- C9: on the single-page document whose words are exactly the "Yes" at
(100,200)-(130,212) and the "No" at (180,200)-(210,212), with no IEQ heading:
no IEQ boundary is recorded, the Notes Filler inserts nothing, and the
Checkbox Marker draws exactly one red X (two crossed segments) whose centre
(cx, cy) satisfies cx ∈ [89.5, 92.5] and cy ∈ [204.8, 207.2] for every
jitter draw inside the uniform ranges. -/
theorem end_to_end_single_yes_no_scenario (jit : ℕ → Jit)
    (hj : ∀ n, JitValid (jit n)) :
    find_ieq_sections docC9 = [] ∧
    insert_ieq_notes_na docC9 (find_ieq_sections docC9) = some [] ∧
    ∃ cx cy b wl,
      mark_yes_boxes_red jit docC9 (find_ieq_sections docC9) =
        [(0, Annot.seg (cx - b/2, cy - b/2) (cx + b/2, cy + b/2) redColor wl),
         (0, Annot.seg (cx - b/2, cy + b/2) (cx + b/2, cy - b/2) redColor wl)] ∧
      179/2 ≤ cx ∧ cx ≤ 185/2 ∧ 1024/5 ≤ cy ∧ cy ≤ 1036/5 := by
  have hieq : find_ieq_sections docC9 = [] := rfl
  refine ⟨hieq, by rw [hieq]; rfl, ?_⟩
  rw [hieq]
  have hmark : mark_yes_boxes_red jit docC9 [] =
      (xAnnotsFrom jit 0 [yesW]).map (fun a => ((0:ℕ), a)) := by
    show markYesFrom jit [] 0 0 [pageC9] = _
    simp only [markYesFrom, pageC9, ythreshFor, List.find?, Option.map_none',
      markedWords_C9, List.append_nil]
  rcases hj 0 with ⟨h1, h2, h3, h4, _, _, _, _⟩
  refine ⟨yesW.x0 - (9 + (jit 0).jx),
    yesW.y0 + (yesW.y1 - yesW.y0) / 2 + (jit 0).jy,
    max (15/2) (10 + (jit 0).jb), max (9/10) (6/5 + (jit 0).jw),
    ?_, ?_, ?_, ?_, ?_⟩
  · rw [hmark]; rfl
  · simp only [yesW]; linarith
  · simp only [yesW]; linarith
  · simp only [yesW]; linarith
  · simp only [yesW]; linarith

theorem end_to_end_single_yes_no_scenario_witness :
    find_ieq_sections docC9 = [] ∧
    insert_ieq_notes_na docC9 (find_ieq_sections docC9) = some [] ∧
    ∃ cx cy b wl,
      mark_yes_boxes_red jitZero docC9 (find_ieq_sections docC9) =
        [(0, Annot.seg (cx - b/2, cy - b/2) (cx + b/2, cy + b/2) redColor wl),
         (0, Annot.seg (cx - b/2, cy + b/2) (cx + b/2, cy - b/2) redColor wl)] ∧
      179/2 ≤ cx ∧ cx ≤ 185/2 ∧ 1024/5 ≤ cy ∧ cy ≤ 1036/5 :=
  end_to_end_single_yes_no_scenario jitZero
    (fun _ => by norm_num [JitValid, jitZero])

/-! Facts about the signature-page locator. -/

theorem mem_sigPairsFrom (l : List Page) :
    ∀ (j : ℕ) (t : ℕ × Rect × Rect),
      t ∈ sigPairsFrom j l ↔
        ∃ m p, l.get? m = some p ∧ t.1 = j + m ∧
          t.2.1 ∈ p.searchFor sigLabel ∧ t.2.2 ∈ p.searchFor dateLabel := by
  induction l with
  | nil =>
    intro j t
    simp [sigPairsFrom]
  | cons p ps ih =>
    intro j t
    rw [sigPairsFrom, List.mem_append]
    constructor
    · rintro (hl | hr)
      · rcases List.mem_flatMap.mp hl with ⟨s, hs, hmap⟩
        rcases List.mem_map.mp hmap with ⟨d, hd, hdt⟩
        refine ⟨0, p, by simp, ?_, ?_, ?_⟩
        · rw [← hdt]; simp
        · rw [← hdt]; exact hs
        · rw [← hdt]; exact hd
      · rcases (ih (j+1) t).mp hr with ⟨m, q, hq, ht1, hts, htd⟩
        exact ⟨m + 1, q, by simpa using hq, by omega, hts, htd⟩
    · rintro ⟨m, q, hq, ht1, hts, htd⟩
      cases m with
      | zero =>
        have hpq : p = q := by simpa using hq
        subst hpq
        left
        refine List.mem_flatMap.mpr ⟨t.2.1, hts, ?_⟩
        refine List.mem_map.mpr ⟨t.2.2, htd, ?_⟩
        have hj : j = t.1 := by omega
        rw [hj]
      | succ m2 =>
        right
        refine (ih (j+1) t).mpr ⟨m2, q, by simpa using hq, by omega, hts, htd⟩

theorem phrasePageFrom_first (l : List Page) :
    ∀ j i : ℕ, phrasePageFrom j l = some i →
      ∃ m, i = j + m ∧
        (∃ p, l.get? m = some p ∧ p.searchFor sigPhrase ≠ []) ∧
        ∀ m2 p2, m2 < m → l.get? m2 = some p2 →
          p2.searchFor sigPhrase = [] := by
  induction l with
  | nil => intro j i h; exact absurd h (by simp [phrasePageFrom])
  | cons p ps ih =>
    intro j i h
    rw [phrasePageFrom] at h
    by_cases hp : p.searchFor sigPhrase ≠ []
    · rw [if_pos hp] at h
      have hij : i = j := (Option.some_inj.mp h).symm
      exact ⟨0, by omega, ⟨p, by simp, hp⟩,
        fun m2 p2 hm2 _ => absurd hm2 (Nat.not_lt_zero m2)⟩
    · rw [if_neg hp] at h
      rcases ih (j+1) i h with ⟨m, him, ⟨q, hq, hqne⟩, hfirst⟩
      refine ⟨m + 1, by omega, ⟨q, by simpa using hq, hqne⟩, ?_⟩
      intro m2 p2 hm2 hp2
      cases m2 with
      | zero =>
        have hpp : p = p2 := by simpa using hp2
        rw [← hpp]
        exact not_not.mp hp
      | succ m3 =>
        exact hfirst m3 p2 (by omega) (by simpa using hp2)

/-- C3 counterexample: a three-page document with no phrase page whose only
Signature/Date pair sits on page 0 at vertical-centre distance 2·10^9.
The claim as stated selects page 0 by rule (b); the code ignores the pair
(its gap does not beat the 1e9 seed) and returns the fallback page 1. -/
theorem signature_page_sentinel_cex :
    find_signature_page docC3cex = 1 ∧
      sigPairs docC3cex ≠ [] ∧
      (∀ t ∈ sigPairs docC3cex, t.1 = 0) ∧
      (∀ p ∈ docC3cex, p.searchFor sigPhrase = []) := by
  have h1 : phrasePage docC3cex = none := rfl
  have h2 : sigPairs docC3cex = [(0, sFar, dFar)] := rfl
  have h3 : bestSigPage docC3cex = none := by
    rw [bestSigPage, sigPairs] at *
    rw [h2]
    norm_num [minSelectBy, sigGap, vgap, vCenter, sFar, dFar]
  refine ⟨?_, ?_, ?_, ?_⟩
  · simp only [find_signature_page, h1, h3]
    rfl
  · rw [h2]
    simp
  · rw [h2]
    intro t ht
    rw [List.mem_singleton.mp ht]
  · intro p hp
    rcases List.mem_cons.mp hp with he | hp2
    · rw [he]; rfl
    rcases List.mem_cons.mp hp2 with he | hp3
    · rw [he]; rfl
    rcases List.mem_cons.mp hp3 with he | hp4
    · rw [he]; rfl
    · exact absurd hp4 (List.not_mem_nil p)

/-- C3 (amended): the Signature Filler selects exactly one target page by
priority: (a) the first page with the exact phrase; else (b) the page of a
Signature/Date pair of minimal vertical-centre distance over all pages,
provided that minimal distance is below 10^9 (pairs at distance at least
10^9 never beat the loop seed); else (c) page `length - 2` (page 0 for
fewer than two pages). In a 3-page document where only page 2 carries the
phrase, page 2 is selected even with standalone Signature/Date pairs on
pages 0 and 1. -/
theorem signature_page_priority_amended :
    (∀ (doc : Doc) (i : ℕ), phrasePage doc = some i →
      find_signature_page doc = i ∧
        (∃ p, doc.get? i = some p ∧ p.searchFor sigPhrase ≠ []) ∧
        ∀ j p2, j < i → doc.get? j = some p2 →
          p2.searchFor sigPhrase = []) ∧
    (∀ doc : Doc, phrasePage doc = none →
      (∃ t ∈ sigPairs doc, sigGap t < 10^9) →
      ∃ t ∈ sigPairs doc, find_signature_page doc = t.1 ∧
        ∀ u ∈ sigPairs doc, sigGap t ≤ sigGap u) ∧
    (∀ doc : Doc, phrasePage doc = none →
      (∀ t ∈ sigPairs doc, ¬ sigGap t < 10^9) →
      find_signature_page doc = doc.length - 2) ∧
    (∀ (u : ℕ × Rect × Rect) (doc : Doc),
      u ∈ sigPairs doc ↔ ∃ p, doc.get? u.1 = some p ∧
        u.2.1 ∈ p.searchFor sigLabel ∧ u.2.2 ∈ p.searchFor dateLabel) ∧
    (find_signature_page docC3scn = 2 ∧
      pgScn0.searchFor sigLabel ≠ [] ∧ pgScn0.searchFor dateLabel ≠ [] ∧
      pgScn1.searchFor sigLabel ≠ [] ∧ pgScn1.searchFor dateLabel ≠ []) := by
  refine ⟨?_, ?_, ?_, ?_, ?_⟩
  · intro doc i hp
    rcases phrasePageFrom_first doc 0 i hp with ⟨m, him, ⟨p, hpm, hpne⟩, hfirst⟩
    have hmi : m = i := by omega
    subst hmi
    refine ⟨?_, ⟨p, hpm, hpne⟩, fun j p2 hj hp2 => hfirst j p2 hj hp2⟩
    rw [find_signature_page, phrasePage] at *
    rw [hp]
  · intro doc hnone hex
    rcases hex with ⟨t, ht, hlt⟩
    rcases minSelectBy_isSome (fun _ => true) sigGap (fun t => t.1)
        (sigPairs doc) ((10:ℚ)^9) ⟨t, ht, rfl, hlt⟩ with ⟨b, hb⟩
    rcases minSelectBy_eq_or_mem (fun _ => true) sigGap (fun t => t.1)
        (sigPairs doc) ((10:ℚ)^9, none) with heq | ⟨x, hx, _, hxe⟩
    · rw [heq] at hb
      exact absurd hb (by simp)
    · refine ⟨x, hx, ?_, ?_⟩
      · rw [find_signature_page, phrasePage] at *
        rw [hnone]
        have hbest : bestSigPage doc = some x.1 := by
          rw [bestSigPage, hxe]
        rw [hbest]
      · intro u hu
        have hmin := minSelectBy_fst_min (fun _ => true) sigGap
          (fun t => t.1) (sigPairs doc) ((10:ℚ)^9, none) u hu rfl
        rw [hxe] at hmin
        exact hmin
  · intro doc hnone hall
    have hupd := minSelectBy_no_update (fun _ => true) sigGap (fun t => t.1)
      (sigPairs doc) ((10:ℚ)^9, none)
      (fun x hx _ => hall x hx)
    have hbest : bestSigPage doc = none := by
      rw [bestSigPage, hupd]
    rw [find_signature_page, phrasePage] at *
    rw [hnone, hbest]
  · intro u doc
    have h := mem_sigPairsFrom doc 0 u
    rw [sigPairs]
    rw [h]
    constructor
    · rintro ⟨m, p, hm, hu1, hs, hd⟩
      refine ⟨p, ?_, hs, hd⟩
      rw [hu1]
      simpa using hm
    · rintro ⟨p, hm, hs, hd⟩
      exact ⟨u.1, p, hm, by omega, hs, hd⟩
  · refine ⟨rfl, ?_, ?_, ?_, ?_⟩ <;> decide

theorem signature_page_priority_amended_witness :
    phrasePage docC3scn = some 2 ∧ find_signature_page docC3scn = 2 :=
  ⟨rfl, (signature_page_priority_amended.1 docC3scn 2 rfl).1⟩

/-! Facts about the Signature/Date label pairing. -/

theorem searchFor_pg80_name : pg80.searchFor namePara = [] := rfl

theorem searchFor_pg80_datep : pg80.searchFor datePara = [] := rfl

theorem searchFor_pg80_sig : pg80.searchFor sigLabel = [s80] := rfl

theorem searchFor_pg80_date : pg80.searchFor dateLabel = [d80] := rfl

theorem mem_pairsOf {sigs dates : List Rect} {sd : Rect × Rect} :
    sd ∈ pairsOf sigs dates ↔ sd.1 ∈ sigs ∧ sd.2 ∈ dates := by
  rw [pairsOf]
  constructor
  · intro h
    rcases List.mem_flatMap.mp h with ⟨s, hs, hm⟩
    rcases List.mem_map.mp hm with ⟨d, hd, hdt⟩
    rw [← hdt]
    exact ⟨hs, hd⟩
  · rintro ⟨h1, h2⟩
    exact List.mem_flatMap.mpr ⟨sd.1, h1, List.mem_map.mpr ⟨sd.2, h2, rfl⟩⟩

/-- C4: a Signature/Date pair within the 60-unit tolerance is chosen by
minimal vertical-centre distance among all within-tolerance pairs; when no
pair is within tolerance but both label lists are nonempty, the topmost
Signature label is paired with the vertically nearest Date label regardless
of tolerance; hence the document whose only labels are 80 units apart still
receives the signer name right of the Signature label and the bottom date
right of the Date label, both in red. -/
theorem signature_pairing_tolerance_and_fallback :
    (∀ sigs dates : List Rect,
      (∃ sd ∈ pairsOf sigs dates, vgap sd.1 sd.2 ≤ 60) →
      ∃ sd, bestPair 60 sigs dates = some sd ∧ sd.1 ∈ sigs ∧ sd.2 ∈ dates ∧
        vgap sd.1 sd.2 ≤ 60 ∧
        ∀ u ∈ pairsOf sigs dates, vgap u.1 u.2 ≤ 60 →
          vgap sd.1 sd.2 ≤ vgap u.1 u.2) ∧
    (∀ sigs dates : List Rect,
      (∀ sd ∈ pairsOf sigs dates, ¬ vgap sd.1 sd.2 ≤ 60) →
      sigs ≠ [] → dates ≠ [] →
      ∃ s d, pairOrFallback 60 sigs dates = some (s, d) ∧ s ∈ sigs ∧
        d ∈ dates ∧ (∀ s2 ∈ sigs, s.y0 ≤ s2.y0) ∧
        ∀ d2 ∈ dates, vgap d s ≤ vgap d2 s) ∧
    (∀ (tw : String → ℚ → ℚ) (nm dt : String),
      fill_signature_section_red tw doc80 nm dt 60 =
        some [Annot.txt (132, 110) nm 16 redColor,
              Annot.txt (112, 190) dt 12 redColor]) := by
  refine ⟨?_, ?_, ?_⟩
  · intro sigs dates hex
    rcases hex with ⟨sd, hsd, hle⟩
    have hok : (fun sd : Rect × Rect => decide (vgap sd.1 sd.2 ≤ 60)) sd
        = true := decide_eq_true hle
    have hlt : vgap sd.1 sd.2 < (10:ℚ)^9 :=
      lt_of_le_of_lt hle (by norm_num)
    rcases minSelectBy_isSome
        (fun sd : Rect × Rect => decide (vgap sd.1 sd.2 ≤ 60))
        (fun sd => vgap sd.1 sd.2) id (pairsOf sigs dates) ((10:ℚ)^9)
        ⟨sd, hsd, hok, hlt⟩ with ⟨b, hb⟩
    rcases minSelectBy_eq_or_mem
        (fun sd : Rect × Rect => decide (vgap sd.1 sd.2 ≤ 60))
        (fun sd => vgap sd.1 sd.2) id (pairsOf sigs dates)
        ((10:ℚ)^9, none) with heq | ⟨x, hx, hxok, hxe⟩
    · rw [heq] at hb
      exact absurd hb (by simp)
    · have hxle : vgap x.1 x.2 ≤ 60 := of_decide_eq_true hxok
      refine ⟨x, ?_, (mem_pairsOf.mp hx).1, (mem_pairsOf.mp hx).2, hxle, ?_⟩
      · rw [bestPair, hxe]
        rfl
      · intro u hu hule
        have hmin := minSelectBy_fst_min
          (fun sd : Rect × Rect => decide (vgap sd.1 sd.2 ≤ 60))
          (fun sd => vgap sd.1 sd.2) id (pairsOf sigs dates)
          ((10:ℚ)^9, none) u hu (decide_eq_true hule)
        rw [hxe] at hmin
        exact hmin
  · intro sigs dates hall hsigs hdates
    have hnone : bestPair 60 sigs dates = none := by
      rw [bestPair, minSelectBy_no_update _ _ _ _ _
        (fun x hx hxok => absurd (of_decide_eq_true hxok) (hall x hx))]
    cases sigs with
    | nil => exact absurd rfl hsigs
    | cons s0 ss =>
      cases dates with
      | nil => exact absurd rfl hdates
      | cons d0 ds =>
        have hs := minByKeyList_spec (fun r => r.y0) (s0 :: ss)
          (minByKey (fun r => r.y0) s0 ss) rfl
        have hd := minByKeyList_spec
          (fun r => vgap r (minByKey (fun r => r.y0) s0 ss)) (d0 :: ds)
          (minByKey (fun r => vgap r (minByKey (fun r => r.y0) s0 ss)) d0 ds)
          rfl
        refine ⟨minByKey (fun r => r.y0) s0 ss,
          minByKey (fun r => vgap r (minByKey (fun r => r.y0) s0 ss)) d0 ds,
          ?_, hs.1, hd.1, hs.2, hd.2⟩
        rw [pairOrFallback, hnone]
        rfl
  · intro tw nm dt
    have hp : phrasePage doc80 = none := rfl
    have hb : bestSigPage doc80 = some 0 := by
      rw [bestSigPage]
      norm_num [sigPairs, sigPairsFrom, doc80, pg80, Page.searchFor,
        List.find?, minSelectBy, sigGap, vgap, vCenter, s80, d80, sigLabel,
        dateLabel]
    have hfsp : find_signature_page doc80 = 0 := by
      simp only [find_signature_page, hp, hb]
    have hget : doc80.get? (find_signature_page doc80) = some pg80 := by
      rw [hfsp]
      rfl
    simp only [fill_signature_section_red, hget, searchFor_pg80_name,
      searchFor_pg80_datep, searchFor_pg80_sig, searchFor_pg80_date]
    norm_num [chosenDatePara, pairOrFallback, bestPair, pairsOf,
      minSelectBy, vgap, vCenter, s80, d80, fallbackPair, minByKeyList,
      minByKey, List.foldl, List.flatMap, naText, redColor]

theorem signature_pairing_tolerance_and_fallback_witness :
    ∃ sd, bestPair 60 [sNear0] [dNear0] = some sd ∧ sd.1 ∈ [sNear0] ∧
      sd.2 ∈ [dNear0] ∧ vgap sd.1 sd.2 ≤ 60 ∧
      ∀ u ∈ pairsOf [sNear0] [dNear0], vgap u.1 u.2 ≤ 60 →
        vgap sd.1 sd.2 ≤ vgap u.1 u.2 :=
  signature_pairing_tolerance_and_fallback.1 [sNear0] [dNear0]
    ⟨(sNear0, dNear0), by decide,
     by norm_num [vgap, vCenter, sNear0, dNear0]⟩

/-! Facts about the paragraph-token choice and totality of the filler. -/

theorem find?_first {α : Type} (p : α → Bool) :
    ∀ (l : List α) (x : α), l.find? p = some x →
      p x = true ∧ ∃ pre post, l = pre ++ x :: post ∧
        ∀ e ∈ pre, p e = false := by
  intro l
  induction l with
  | nil => intro x h; exact absurd h (by simp)
  | cons a as ih =>
    intro x h
    by_cases hp : p a = true
    · rw [List.find?_cons_of_pos _ hp] at h
      have hax : a = x := Option.some_inj.mp h
      subst hax
      exact ⟨hp, [], as, rfl, by simp⟩
    · rw [List.find?_cons_of_neg _ (by simpa using hp)] at h
      rcases ih x h with ⟨hpx, pre, post, heq, hpre⟩
      refine ⟨hpx, a :: pre, post, by rw [heq]; rfl, ?_⟩
      intro e he
      rcases List.mem_cons.mp he with he1 | he2
      · rw [he1]
        simpa using hp
      · exact hpre e he2

/-- C6 counterexample: with the (Name) top edge at 100 and (Date)
occurrences with top edges 97 and 100, the code chooses the occurrence at
97 — strictly above the (Name) token's top — because its test is
`d.y0 >= name.y0 - 5`; the claim as stated requires the first occurrence at
or below the top, which is the second one. -/
theorem date_para_tolerance_cex :
    chosenDatePara [nmC6] [dC6a, dC6b] = some dC6a ∧
      dC6a.y0 < nmC6.y0 ∧ nmC6.y0 ≤ dC6b.y0 := by
  refine ⟨?_, by norm_num [dC6a, nmC6], by norm_num [dC6b, nmC6]⟩
  norm_num [chosenDatePara, List.find?, dC6a, dC6b, nmC6]

/-- C6 (amended): when both token kinds exist, the (Date) occurrence chosen
for the "NA" insertion is the first one, in search order, whose top edge is
at or below the (Name) token's top edge minus a 5-unit tolerance
(`d.y0 ≥ name.y0 - 5`); if none qualifies, or no (Name) token was found, the
first (Date) occurrence is chosen; the "NA" is inserted in red, right-aligned
to end 6 units before the chosen token's left edge. -/
theorem date_para_choice_amended :
    (∀ (nm : Rect) (nms dms : List Rect) (d : Rect),
      chosenDatePara (nm :: nms) dms = some d →
        (∃ pre post, dms = pre ++ d :: post ∧ d.y0 ≥ nm.y0 - 5 ∧
          ∀ e ∈ pre, ¬ e.y0 ≥ nm.y0 - 5) ∨
        ((∀ e ∈ dms, ¬ e.y0 ≥ nm.y0 - 5) ∧ dms.head? = some d)) ∧
    (∀ dms : List Rect, chosenDatePara [] dms = dms.head?) ∧
    (∀ (tw : String → ℚ → ℚ) (doc : Doc) (nm dt : String) (tol : ℚ)
        (page : Page) (c : Rect) (out : List Annot),
      doc.get? (find_signature_page doc) = some page →
      chosenDatePara (page.searchFor namePara) (page.searchFor datePara) =
        some c →
      fill_signature_section_red tw doc nm dt tol = some out →
      Annot.txt (c.x0 - 6 - tw naText 11, c.y1 - 2) naText 11 redColor ∈
        out) := by
  refine ⟨?_, ?_, ?_⟩
  · intro nm nms dms d h
    cases dms with
    | nil => exact absurd h (by simp [chosenDatePara])
    | cons d0 ds =>
      rw [chosenDatePara] at h
      cases hf : (d0 :: ds).find? (fun x => decide (x.y0 ≥ nm.y0 - 5)) with
      | some d2 =>
        rw [hf] at h
        have hd2 : d2 = d := Option.some_inj.mp h
        subst hd2
        rcases find?_first _ _ _ hf with ⟨hpd, pre, post, heq, hpre⟩
        left
        refine ⟨pre, post, heq, of_decide_eq_true hpd, ?_⟩
        intro e he
        have := hpre e he
        simpa using this
      | none =>
        rw [hf] at h
        have hd0 : d0 = d := Option.some_inj.mp h
        right
        refine ⟨?_, by rw [← hd0]; rfl⟩
        intro e he
        have := List.find?_eq_none.mp hf e he
        simpa using this
  · intro dms
    cases dms with
    | nil => rfl
    | cons d0 ds => rfl
  · intro tw doc nm dt tol page c out hget hc hout
    simp only [fill_signature_section_red, hget, hc] at hout
    rw [← Option.some_inj.mp hout]
    exact List.mem_append.mpr (Or.inl (List.mem_append.mpr
      (Or.inr (List.mem_singleton.mpr rfl))))

theorem date_para_choice_amended_witness :
    (∃ pre post, [dC6a, dC6b] = pre ++ dC6a :: post ∧
        dC6a.y0 ≥ nmC6.y0 - 5 ∧ ∀ e ∈ pre, ¬ e.y0 ≥ nmC6.y0 - 5) ∨
      ((∀ e ∈ [dC6a, dC6b], ¬ e.y0 ≥ nmC6.y0 - 5) ∧
        [dC6a, dC6b].head? = some dC6a) :=
  date_para_choice_amended.1 nmC6 [] [dC6a, dC6b] dC6a
    (by norm_num [chosenDatePara, List.find?, dC6a, dC6b, nmC6])

theorem find_signature_page_lt (doc : Doc) (h : doc ≠ []) :
    find_signature_page doc < doc.length := by
  cases hp : phrasePage doc with
  | some i =>
    rcases phrasePageFrom_first doc 0 i hp with ⟨m, him, ⟨p, hpm, _⟩, _⟩
    rcases List.get?_eq_some.mp hpm with ⟨hlt, _⟩
    simp only [find_signature_page, hp]
    omega
  | none =>
    cases hb : bestSigPage doc with
    | some i =>
      rcases minSelectBy_eq_or_mem (fun _ => true) sigGap (fun t => t.1)
          (sigPairs doc) ((10:ℚ)^9, none) with heq | ⟨x, hx, _, hxe⟩
      · rw [bestSigPage, heq] at hb
        exact absurd hb (by simp)
      · have hb2 := hb
        rw [bestSigPage, hxe] at hb2
        have hxi : x.1 = i := by simpa using hb2
        rcases (mem_sigPairsFrom doc 0 x).mp hx with ⟨m, p, hm, hx1, _, _⟩
        rcases List.get?_eq_some.mp hm with ⟨hlt, _⟩
        simp only [find_signature_page, hp, hb]
        omega
    | none =>
      have hpos : 0 < doc.length := List.length_pos.mpr h
      simp only [find_signature_page, hp, hb]
      omega

/-- C7 counterexample: on a zero-page document the fallback page index is 0,
and the page lookup `doc[0]` raises (modelled by `none`), so the claim's
"raises no exception for every document" fails on the empty document. -/
theorem fill_signature_empty_doc_cex :
    fill_signature_section_red twZero [] "Jane Doe" "2026-01-01" 60 =
      none := rfl

/-- C7 (amended): on every document with at least one page,
`fill_signature_section_red` raises no exception — the locator fallback
always yields an in-range page index — and when the selected page has no
signature/date labels and no parenthetical tokens, every insertion is
simply omitted. -/
theorem fill_signature_total_amended (tw : String → ℚ → ℚ) (doc : Doc)
    (nm dt : String) (h : doc ≠ []) :
    ∃ out, fill_signature_section_red tw doc nm dt 60 = some out ∧
      ∀ page, doc.get? (find_signature_page doc) = some page →
        page.searchFor namePara = [] → page.searchFor datePara = [] →
        page.searchFor sigLabel = [] → page.searchFor dateLabel = [] →
        out = [] := by
  have hlt := find_signature_page_lt doc h
  have hget : ∃ p, doc.get? (find_signature_page doc) = some p := by
    cases hg : doc.get? (find_signature_page doc) with
    | some p => exact ⟨p, rfl⟩
    | none => exact absurd (List.get?_eq_none.mp hg) (by omega)
  rcases hget with ⟨p, hp⟩
  simp only [fill_signature_section_red, hp]
  refine ⟨_, rfl, ?_⟩
  intro page hpage h1 h2 h3 h4
  have hpp : p = page := Option.some_inj.mp hpage
  subst hpp
  rw [h1, h2, h3, h4]
  simp [chosenDatePara, pairOrFallback, bestPair, pairsOf, minSelectBy,
    fallbackPair, minByKeyList]

theorem fill_signature_total_amended_witness :
    ∃ out, fill_signature_section_red twZero [emptyPage] "Jane Doe"
        "2026-01-01" 60 = some out ∧
      ∀ page, [emptyPage].get? (find_signature_page [emptyPage]) =
          some page →
        page.searchFor namePara = [] → page.searchFor datePara = [] →
        page.searchFor sigLabel = [] → page.searchFor dateLabel = [] →
        out = [] :=
  fill_signature_total_amended twZero [emptyPage] "Jane Doe" "2026-01-01"
    (by simp)

/-! The two pure queries in state-passing form return the document they
traversed unchanged. -/

theorem findIeqSectionsStFrom_spec (l : List Page) :
    ∀ i : ℕ, (findIeqSectionsStFrom i l).1 = l ∧
      (findIeqSectionsStFrom i l).2 = findIeqFrom i l := by
  induction l with
  | nil => intro i; exact ⟨rfl, rfl⟩
  | cons p ps ih =>
    intro i
    simp only [findIeqSectionsStFrom, findIeqFrom]
    cases hc : p.searchFor ieqHeading with
    | nil => simp [(ih (i+1)).1, (ih (i+1)).2]
    | cons r rs => simp [(ih (i+1)).1, (ih (i+1)).2]

theorem phrasePageStFrom_spec (l : List Page) :
    ∀ i : ℕ, (phrasePageStFrom i l).1 = l ∧
      (phrasePageStFrom i l).2 = phrasePageFrom i l := by
  induction l with
  | nil => intro i; exact ⟨rfl, rfl⟩
  | cons p ps ih =>
    intro i
    simp only [phrasePageStFrom, phrasePageFrom]
    by_cases h : p.searchFor sigPhrase ≠ []
    · rw [if_pos h, if_pos h]
      exact ⟨rfl, rfl⟩
    · rw [if_neg h, if_neg h]
      exact ⟨by simp [(ih (i+1)).1], (ih (i+1)).2⟩

theorem sigPairsStFrom_spec (l : List Page) :
    ∀ i : ℕ, (sigPairsStFrom i l).1 = l ∧
      (sigPairsStFrom i l).2 = sigPairsFrom i l := by
  induction l with
  | nil => intro i; exact ⟨rfl, rfl⟩
  | cons p ps ih =>
    intro i
    simp only [sigPairsStFrom, sigPairsFrom]
    exact ⟨by simp [(ih (i+1)).1], by simp [(ih (i+1)).2]⟩

theorem findSignaturePageSt_spec (doc : Doc) :
    (findSignaturePageSt doc).1 = doc ∧
      (findSignaturePageSt doc).2 = find_signature_page doc := by
  have h1 := phrasePageStFrom_spec doc 0
  have h2 := sigPairsStFrom_spec doc 0
  simp only [findSignaturePageSt, find_signature_page, phrasePage, bestSigPage,
    sigPairs, h1.1, h1.2, h2.1, h2.2]
  cases hp : phrasePageFrom 0 doc with
  | some i => exact ⟨rfl, rfl⟩
  | none =>
    cases hb : (minSelectBy (fun _ => true) sigGap (fun t => t.1)
        (sigPairsFrom 0 doc) ((10:ℚ)^9, none)).2 with
    | some i => exact ⟨rfl, rfl⟩
    | none => exact ⟨rfl, rfl⟩

/-! Facts about the recorded IEQ sections and the Notes Filler loop. -/

theorem findIeqFrom_ge (l : List Page) :
    ∀ i : ℕ, ∀ e ∈ findIeqFrom i l, i ≤ e.1 := by
  induction l with
  | nil => intro i e he; exact absurd he (List.not_mem_nil e)
  | cons p ps ih =>
    intro i e he
    rw [findIeqFrom] at he
    cases hc : p.searchFor ieqHeading with
    | nil =>
      rw [hc] at he
      exact le_trans (Nat.le_succ i) (ih (i+1) e he)
    | cons r rs =>
      rw [hc] at he
      rcases List.mem_cons.mp he with he1 | he2
      · rw [he1]
      · exact le_trans (Nat.le_succ i) (ih (i+1) e he2)

theorem findIeqFrom_sorted (l : List Page) :
    ∀ i : ℕ, (findIeqFrom i l).Pairwise (fun a b => a.1 ≤ b.1) := by
  induction l with
  | nil => intro i; simp [findIeqFrom]
  | cons p ps ih =>
    intro i
    rw [findIeqFrom]
    cases hc : p.searchFor ieqHeading with
    | nil => exact ih (i+1)
    | cons r rs =>
      refine List.pairwise_cons.mpr ⟨?_, ih (i+1)⟩
      intro e he
      exact le_trans (Nat.le_succ i) (findIeqFrom_ge ps (i+1) e he)

theorem findIeqFrom_get (l : List Page) :
    ∀ i : ℕ, ∀ e ∈ findIeqFrom i l, ∃ p, l.get? (e.1 - i) = some p := by
  induction l with
  | nil => intro i e he; exact absurd he (List.not_mem_nil e)
  | cons p ps ih =>
    intro i e he
    rw [findIeqFrom] at he
    cases hc : p.searchFor ieqHeading with
    | nil =>
      rw [hc] at he
      rcases ih (i+1) e he with ⟨q, hq⟩
      have hge : i + 1 ≤ e.1 := findIeqFrom_ge ps (i+1) e he
      have harith : e.1 - i = (e.1 - (i+1)) + 1 := by omega
      rw [harith]
      exact ⟨q, hq⟩
    | cons r rs =>
      rw [hc] at he
      rcases List.mem_cons.mp he with he1 | he2
      · rw [he1]
        simp
      · rcases ih (i+1) e he2 with ⟨q, hq⟩
        have hge : i + 1 ≤ e.1 := findIeqFrom_ge ps (i+1) e he2
        have harith : e.1 - i = (e.1 - (i+1)) + 1 := by omega
        rw [harith]
        exact ⟨q, hq⟩

theorem insertSec_append (s : ℕ × Rect) :
    ∀ acc : List (ℕ × Rect), (∀ y ∈ acc, y.1 ≤ s.1) →
      insertSec s acc = acc ++ [s] := by
  intro acc
  induction acc with
  | nil => intro _; rfl
  | cons t ts ih =>
    intro h
    rw [insertSec, if_pos (h t (List.mem_cons_self t ts))]
    rw [ih (fun y hy => h y (List.mem_cons_of_mem t hy))]
    rfl

theorem sortSections_sorted_id_aux :
    ∀ l acc : List (ℕ × Rect), l.Pairwise (fun a b => a.1 ≤ b.1) →
      (∀ y ∈ acc, ∀ x ∈ l, y.1 ≤ x.1) →
      l.foldl (fun a s => insertSec s a) acc = acc ++ l := by
  intro l
  induction l with
  | nil => intro acc _ _; simp
  | cons x xs ih =>
    intro acc hpw hcross
    have hins : insertSec x acc = acc ++ [x] :=
      insertSec_append x acc
        (fun y hy => hcross y hy x (List.mem_cons_self x xs))
    have hxs := (List.pairwise_cons.mp hpw).2
    have hhead := (List.pairwise_cons.mp hpw).1
    have hcross2 : ∀ y ∈ acc ++ [x], ∀ z ∈ xs, y.1 ≤ z.1 := by
      intro y hy z hz
      rcases List.mem_append.mp hy with hy1 | hy2
      · exact hcross y hy1 z (List.mem_cons_of_mem x hz)
      · rw [List.mem_singleton.mp hy2]
        exact hhead z hz
    rw [List.foldl_cons, hins, ih (acc ++ [x]) hxs hcross2]
    simp

theorem sortSections_find_ieq (doc : Doc) :
    sortSections (find_ieq_sections doc) = find_ieq_sections doc := by
  rw [sortSections,
    sortSections_sorted_id_aux (find_ieq_sections doc) []
      (findIeqFrom_sorted doc 0) (by simp)]
  simp

theorem head_filter_eq_find {α : Type} (p : α → Bool) :
    ∀ l : List α, (l.filter p).head? = l.find? p := by
  intro l
  induction l with
  | nil => rfl
  | cons x xs ih =>
    by_cases h : p x = true
    · simp [List.filter_cons, List.find?_cons, h]
    · simp [List.filter_cons, List.find?_cons, h, ih]

theorem ieqStep_eq_spec (doc : Doc) (s : ℕ × Rect) (page : Page)
    (hp : doc.get? s.1 = some page) :
    ieqStep doc s = some (match notesTargetSpec doc s.1 s.2 with
      | some t => [(t.1, naAnnot t.2)]
      | none => []) := by
  simp only [ieqStep, notesTargetSpec, hp, head_filter_eq_find]
  cases hf : (page.searchFor notesLabel).find?
      (fun r => decide (r.y0 > s.2.y1)) with
  | some r => rfl
  | none =>
    cases hfw : forwardNotes doc s.1 with
    | some t => rfl
    | none => rfl

theorem insert_ieq_foldl (doc : Doc) :
    ∀ (sections : List (ℕ × Rect)) (L0 : List (ℕ × Annot)),
      (∀ s ∈ sections, (ieqStep doc s).isSome) →
      sections.foldl
        (fun acc s =>
          acc.bind (fun l => (ieqStep doc s).map (fun l2 => l ++ l2)))
        (some L0) =
      some (L0 ++ sections.flatMap (fun s => (ieqStep doc s).getD [])) := by
  intro sections
  induction sections with
  | nil => intro L0 _; simp
  | cons s ss ih =>
    intro L0 hall
    rcases Option.isSome_iff_exists.mp
      (hall s (List.mem_cons_self s ss)) with ⟨l2, hl2⟩
    rw [List.foldl_cons]
    have hstep : (some L0).bind
        (fun l => (ieqStep doc s).map (fun l2 => l ++ l2)) =
        some (L0 ++ l2) := by
      rw [hl2]
      rfl
    rw [hstep, ih (L0 ++ l2) (fun t ht => hall t (List.mem_cons_of_mem s ht))]
    rw [List.flatMap_cons, hl2]
    simp [List.append_assoc]

theorem flatMap_congr_mem {α β : Type} (l : List α) (f g : α → List β)
    (h : ∀ a ∈ l, f a = g a) : l.flatMap f = l.flatMap g := by
  induction l with
  | nil => rfl
  | cons x xs ih =>
    rw [List.flatMap_cons, List.flatMap_cons,
      h x (List.mem_cons_self x xs),
      ih (fun a ha => h a (List.mem_cons_of_mem x ha))]

/-- C5: on the sections recorded by `find_ieq_sections`, processed in
page-index order, the Notes Filler never raises, and the insertions are
exactly: for each recorded boundary, an `"NA"` in red at 10 units right and
8 units below the chosen `"Notes:"` label — the first occurrence on the
section's page whose top edge is below the heading's bottom edge, else the
first occurrence on the first subsequent page carrying any; sections with no
target contribute nothing. -/
theorem ieq_notes_na_characterisation (doc : Doc) :
    ∃ L, insert_ieq_notes_na doc (find_ieq_sections doc) = some L ∧
      L = (find_ieq_sections doc).flatMap
        (fun s => match notesTargetSpec doc s.1 s.2 with
          | some t => [(t.1, naAnnot t.2)]
          | none => []) := by
  have hget : ∀ s ∈ find_ieq_sections doc, ∃ p, doc.get? s.1 = some p := by
    intro s hs
    have h := findIeqFrom_get doc 0 s hs
    simpa using h
  have hsome : ∀ s ∈ find_ieq_sections doc, (ieqStep doc s).isSome := by
    intro s hs
    rcases hget s hs with ⟨p, hp⟩
    rw [ieqStep_eq_spec doc s p hp]
    rfl
  rw [insert_ieq_notes_na, sortSections_find_ieq,
    insert_ieq_foldl doc _ [] hsome]
  refine ⟨_, rfl, ?_⟩
  rw [List.nil_append]
  refine flatMap_congr_mem _ _ _ (fun s hs => ?_)
  rcases hget s hs with ⟨p, hp⟩
  rw [ieqStep_eq_spec doc s p hp]
  rfl

/-- C10: the queries `find_ieq_sections` and `find_signature_page`, run in
state-passing form over the document, hand every page back unchanged and
return exactly the values of their pure counterparts; hence any number of
repetitions before or between the mutating operations leaves the document
unaltered. -/
theorem queries_leave_document_unchanged :
    (∀ doc : Doc, (findIeqSectionsSt doc).1 = doc ∧
        (findIeqSectionsSt doc).2 = find_ieq_sections doc) ∧
    (∀ doc : Doc, (findSignaturePageSt doc).1 = doc ∧
        (findSignaturePageSt doc).2 = find_signature_page doc) ∧
    (∀ (doc : Doc) (n : ℕ),
        (fun d => (findIeqSectionsSt d).1)^[n] doc = doc ∧
        (fun d => (findSignaturePageSt d).1)^[n] doc = doc) := by
  have hA : ∀ doc : Doc, (findIeqSectionsSt doc).1 = doc ∧
      (findIeqSectionsSt doc).2 = find_ieq_sections doc :=
    fun doc => findIeqSectionsStFrom_spec doc 0
  refine ⟨hA, findSignaturePageSt_spec, ?_⟩
  intro doc n
  induction n with
  | zero => exact ⟨rfl, rfl⟩
  | succ n ihn =>
    constructor
    · simp only [Function.iterate_succ_apply, (hA doc).1]
      exact ihn.1
    · simp only [Function.iterate_succ_apply, (findSignaturePageSt_spec doc).1]
      exact ihn.2

end AutoSign
